import Mathlib

/-!
Verification of the yUML diagram parser and statistics layer
(`helpers/parsers.py`, `helpers/stats.py`).

The parser works on one line of text at a time, represented here as
`List Char`.  Class names are Lean `String`s.  Python dictionaries with
insertion order (`collections.Counter`) are represented as association
lists `List (κ × Nat)` in insertion order.  `pandas` rows are represented
as a Lean structure, and the in-place column assignment performed by
`compute_dataset_summary` is represented by returning the updated rows
alongside the summary.
-/

/-- Python whitespace characters relevant to `str.strip()`. -/
def pySpace (c : Char) : Bool :=
  c = ' ' || c = '\t' || c = '\n' || c = '\r' || c = '\x0b' || c = '\x0c'

/-- `line.strip()`: drop whitespace from both ends. -/
def pyStrip (l : List Char) : List Char :=
  ((l.dropWhile pySpace).reverse.dropWhile pySpace).reverse

/-- Fuel-driven scanner behind `findBrackets`; the fuel is an upper bound on
the number of characters still to be inspected, so `l.length` fuel is always
enough. -/
def findBracketsAux : Nat → List Char → List (List Char)
  | 0, _ => []
  | _, [] => []
  | fuel + 1, c :: rest =>
    if c = '[' then
      let content := rest.takeWhile (fun d => d ≠ ']')
      if 1 ≤ content.length ∧ content.length < rest.length then
        content :: findBracketsAux fuel (rest.drop (content.length + 1))
      else
        findBracketsAux fuel rest
    else
      findBracketsAux fuel rest

/-- `re.findall(r'\[([^\]]+)\]', line)`: scan left to right; at a `[` with a
later `]` and at least one character in between, emit the characters strictly
between them and resume after the `]`; otherwise keep scanning. -/
def findBrackets (l : List Char) : List (List Char) :=
  findBracketsAux l.length l

/-- `cls.split("|")[0].strip()`: the portion before the first `|`, trimmed. -/
def normalizeCls (tok : List Char) : String :=
  String.mk (pyStrip (tok.takeWhile (fun c => c ≠ '|')))

/-- Python substring test `pat in s` for a list of characters. -/
def containsSeq (pat : List Char) : List Char → Bool
  | [] => pat.isEmpty
  | c :: rest => pat.isPrefixOf (c :: rest) || containsSeq pat rest

/-- The four association relation kinds produced by the parser
(`composition`, `aggregation`, `association`, `unknown`). -/
inductive RelKind where
  | composition
  | aggregation
  | association
  | unknown
deriving DecidableEq

/-- A histogram label: one of the association relation kinds, or the
separate `inheritance` label. -/
inductive Label where
  | rel : RelKind → Label
  | inheritance : Label
deriving DecidableEq

/-- The parse result of one diagram (`parse_yuml_model` return value):
the class-name set, inheritance edges `(child, parent)` in order of
appearance, and typed association edges `(src, dst, rel_type)`. -/
structure DiagramGraph where
  classes : Finset String
  inheritance : List (String × String)
  associations : List (String × String × RelKind)
deriving DecidableEq

/-- Is the (stripped) line skipped: `if not line or line.startswith('//')`. -/
def lineSkip (l : List Char) : Bool :=
  l.isEmpty || ['/', '/'].isPrefixOf l

/-- The normalized bracket tokens of a (stripped) line. -/
def lineTokens (l : List Char) : List String :=
  (findBrackets l).map normalizeCls

/-- The marker-priority relation classification applied to a line with
exactly two normalized tokens `src`, `dst`: inheritance (`^`), else
composition (`++`), else aggregation (`*`), else association (`->`),
else unknown.  Inheritance appends the reversed pair `(dst, src)`. -/
def applyRelation (g : DiagramGraph) (l : List Char) (src dst : String) : DiagramGraph :=
  if l.contains '^' then
    { g with inheritance := g.inheritance ++ [(dst, src)] }
  else if containsSeq ['+', '+'] l then
    { g with associations := g.associations ++ [(src, dst, RelKind.composition)] }
  else if l.contains '*' then
    { g with associations := g.associations ++ [(src, dst, RelKind.aggregation)] }
  else if containsSeq ['-', '>'] l then
    { g with associations := g.associations ++ [(src, dst, RelKind.association)] }
  else
    { g with associations := g.associations ++ [(src, dst, RelKind.unknown)] }

/-- Processing of a single input line by `parse_yuml_model`: strip, skip
blank/comment lines, add all normalized bracket tokens to the class set,
and record a relation only when there are exactly two tokens. -/
def processLine (g : DiagramGraph) (line : List Char) : DiagramGraph :=
  let l := pyStrip line
  if lineSkip l then g
  else
    let normalized := lineTokens l
    let g' : DiagramGraph :=
      { g with classes := normalized.foldl (fun s c => insert c s) g.classes }
    match normalized with
    | [src, dst] => applyRelation g' l src dst
    | _ => g'

/-- `parse_yuml_model`: fold line processing over the lines of the file,
starting from the empty graph. -/
def parse_yuml_model (lines : List (List Char)) : DiagramGraph :=
  lines.foldl processLine ⟨∅, [], []⟩

/-- `Counter` increment `h[k] = h.get(k, 0) + n`: bump the count in place if
the key is present, otherwise append the key at the end (insertion order). -/
def counterAdd {κ : Type} [DecidableEq κ] (h : List (κ × Nat)) (k : κ) (n : Nat) :
    List (κ × Nat) :=
  if h.any (fun p => decide (p.1 = k)) then
    h.map (fun p => if p.1 = k then (p.1, p.2 + n) else p)
  else
    h ++ [(k, n)]

/-- `Counter(ks)`: tally a list of keys in first-seen order. -/
def counterOf {κ : Type} [DecidableEq κ] (ks : List κ) : List (κ × Nat) :=
  ks.foldl (fun h k => counterAdd h k 1) []

/-- Dict assignment `h[k] = n`: replace the count in place if the key is
present, otherwise append the key at the end. -/
def counterSet {κ : Type} [DecidableEq κ] (h : List (κ × Nat)) (k : κ) (n : Nat) :
    List (κ × Nat) :=
  if h.any (fun p => decide (p.1 = k)) then
    h.map (fun p => if p.1 = k then (p.1, n) else p)
  else
    h ++ [(k, n)]

/-- The entry `Counter.most_common(1)` keeps while scanning in insertion
order: a later entry replaces the current best only when its count is
strictly greater, so ties are resolved in favour of the earlier entry. -/
def bestEntry {κ : Type} (b : κ × Nat) : List (κ × Nat) → κ × Nat
  | [] => b
  | q :: rest => bestEntry (if b.2 < q.2 then q else b) rest

/-- `h.most_common(1)[0][0] if h else None`. -/
def mostCommon1 {κ : Type} : List (κ × Nat) → Option κ
  | [] => none
  | p :: rest => some (bestEntry p rest).1

/-- `k` is the label of the first entry attaining the maximum count of the
insertion-ordered histogram `h`: a tie on counts is resolved in favour of
the entry inserted first (the policy `bestEntry` is proved to implement). -/
def FirstMax {κ : Type} (h : List (κ × Nat)) (k : κ) : Prop :=
  ∃ l1 e l2, h = l1 ++ e :: l2 ∧ e.1 = k ∧
    (∀ q ∈ h, q.2 ≤ e.2) ∧ (∀ q ∈ l1, q.2 < e.2)

/-- The node list of the `networkx.DiGraph` built by `G.add_edges_from`:
every endpoint of every edge, first occurrence kept. -/
def nodesOf (es : List (String × String)) : List String :=
  (es.map Prod.fst ++ es.map Prod.snd).dedup

/-- One backward extension step of the walk enumeration: prepend every edge
whose target is the first vertex of the walk. -/
def stepsFrom (es : List (String × String)) (p : List String) : List (List String) :=
  match p with
  | [] => []
  | b :: rest => (es.filter (fun e => decide (e.2 = b))).map (fun e => e.1 :: b :: rest)

/-- All directed walks with exactly `k` edges (`k + 1` vertices) in the
graph with edge list `es`. -/
def walksOfLen (es : List (String × String)) : Nat → List (List String)
  | 0 => (nodesOf es).map (fun v => [v])
  | k + 1 => (walksOfLen es k).flatMap (stepsFrom es)

/-- `nx.is_directed_acyclic_graph(G)`, embedded through its semantics: a
finite directed graph is acyclic iff it has no walk with as many edges as
the graph has nodes (proved below against the inductive walk predicate). -/
def is_dag (es : List (String × String)) : Bool :=
  (walksOfLen es (nodesOf es).length).isEmpty

/-- `nx.dag_longest_path_length(G)`, embedded through its semantics: the
largest `k` below the node count such that the graph has a walk with `k`
edges (on a DAG every walk is shorter than the node count). -/
def longestWalkLen (es : List (String × String)) : Nat :=
  ((List.range (nodesOf es).length).filter
    (fun k => !(walksOfLen es k).isEmpty)).foldr max 0

/-- The `tree_depth` computation of `compute_model_stats`: the longest-path
length when the inheritance graph is a non-empty DAG, and `0` otherwise. -/
def tree_depth (es : List (String × String)) : Nat :=
  if is_dag es ∧ 0 < (nodesOf es).length then longestWalkLen es else 0

/-- The edge relation of the directed graph with edge list `es`. -/
def EdgeStep (es : List (String × String)) (a b : String) : Prop :=
  (a, b) ∈ es

instance (es : List (String × String)) : DecidableRel (EdgeStep es) :=
  fun a b => inferInstanceAs (Decidable ((a, b) ∈ es))

/-- A directed walk in the graph with edge list `es`: a non-empty vertex
sequence whose consecutive pairs are edges and whose vertices are graph
nodes.  A walk with `k + 1` vertices has `k` edges. -/
def IsWalk (es : List (String × String)) (p : List String) : Prop :=
  p ≠ [] ∧ List.Chain' (EdgeStep es) p ∧ ∀ v ∈ p, v ∈ nodesOf es

/-- The graph with edge list `es` has a directed cycle: some walk with at
least one edge returns to its starting vertex. -/
def HasCycle (es : List (String × String)) : Prop :=
  ∃ p, IsWalk es p ∧ 2 ≤ p.length ∧ p.head? = p.getLast?

/-- One `DiagramStats` record as returned by `compute_model_stats`.  The
`block_density` field models the pandas column of that name: it is absent
(`none`) on records coming out of `compute_model_stats` and is filled in for
every record, in place, by `compute_dataset_summary` (inner `none` models
`pd.NA` for records with no classes). -/
structure DiagramStats where
  model : String
  num_classes : Nat
  num_inheritance : Nat
  num_associations : Nat
  association_types : List (RelKind × Nat)
  num_blocks : Nat
  tree_depth : Nat
  most_frequent_label : Option Label
  block_density : Option (Option ℚ)
deriving DecidableEq

/-- `Counter(assoc_types)` of `compute_model_stats`: the tally of the
association relation kinds, in first-seen order. -/
def assocTypeCounts (g : DiagramGraph) : List (RelKind × Nat) :=
  counterOf (g.associations.map (fun a => a.2.2))

/-- The combined label histogram of `compute_model_stats`:
`label_counts = assoc_type_counts.copy(); label_counts["inheritance"] = len(inheritance)`. -/
def labelHist (g : DiagramGraph) : List (Label × Nat) :=
  counterSet ((assocTypeCounts g).map (fun p => (Label.rel p.1, p.2)))
    Label.inheritance g.inheritance.length

/-- The statistics record `compute_model_stats` derives from one parsed
graph (everything after the file lookup and parse). -/
def compute_graph_stats (model : String) (g : DiagramGraph) : DiagramStats :=
  { model := model
    num_classes := g.classes.card
    num_inheritance := g.inheritance.length
    num_associations := ((assocTypeCounts g).map Prod.snd).sum
    association_types := assocTypeCounts g
    num_blocks := g.classes.card + g.inheritance.length + ((assocTypeCounts g).map Prod.snd).sum
    tree_depth := tree_depth g.inheritance
    most_frequent_label := mostCommon1 (labelHist g)
    block_density := none }

/-- `compute_model_stats`: look the model name up in the model → file table
(`yuml_df`), fail with the `ValueError` message when no row matches, and
otherwise parse the first matching row's file and compute its statistics. -/
def compute_model_stats (model_name : String)
    (yuml_df : List (String × List (List Char))) : Except String DiagramStats :=
  match yuml_df.filter (fun r => decide (r.1 = model_name)) with
  | [] => Except.error ("No .yuml file found for model " ++ model_name)
  | r :: _ => Except.ok (compute_graph_stats model_name (parse_yuml_model r.2))

/-- `num_blocks / num_classes` with `num_classes` zero replaced by `pd.NA`:
the block-density value assigned to one record.  The quotient is written
with `mkRat` so that it evaluates by kernel reduction; the lemma
`blockDensity_eq_div` below restates it as division of rationals. -/
def blockDensity (r : DiagramStats) : Option ℚ :=
  if r.num_classes = 0 then none
  else some (mkRat (r.num_blocks : Int) r.num_classes)

/-- The in-place column assignment
`stats_df["block_density"] = num_blocks / num_classes.replace(0, pd.NA)`
applied to one record. -/
def withDensity (r : DiagramStats) : DiagramStats :=
  { r with block_density := some (blockDensity r) }

/-- The `sort_values(by="block_density", ascending=False)` key order:
defined densities come first, in descending numeric order, and `pd.NA`
densities sort to the end (`na_position="last"`). -/
def densLE : Option ℚ → Option ℚ → Bool
  | _, none => true
  | none, some _ => false
  | some x, some y => decide (y ≤ x)

/-- The sort key order applied to two records' density values. -/
def rowBeforeB (a b : DiagramStats) : Bool :=
  densLE (blockDensity a) (blockDensity b)

/-- Propositional form of `rowBeforeB`, used as the sort relation. -/
def rowBefore (a b : DiagramStats) : Prop :=
  rowBeforeB a b = true

instance : DecidableRel rowBefore :=
  fun a b => instDecidableEqBool (rowBeforeB a b) true

instance : IsTotal DiagramStats rowBefore where
  total a b := by
    unfold rowBefore rowBeforeB
    match blockDensity a, blockDensity b with
    | none, none => exact Or.inl rfl
    | none, some y => exact Or.inr rfl
    | some x, none => exact Or.inl rfl
    | some x, some y =>
      rcases le_total y x with h | h
      · exact Or.inl (decide_eq_true h)
      · exact Or.inr (decide_eq_true h)

instance : IsTrans DiagramStats rowBefore where
  trans a b c hab hbc := by
    unfold rowBefore rowBeforeB at hab hbc ⊢
    match blockDensity a, blockDensity b, blockDensity c, hab, hbc with
    | none, none, none, _, _ => rfl
    | none, some _, none, _, _ => rfl
    | some _, none, none, _, _ => rfl
    | some _, some _, none, _, _ => rfl
    | none, none, some _, _, h2 => exact absurd h2 (by simp [densLE])
    | none, some _, some _, h1, _ => exact absurd h1 (by simp [densLE])
    | some _, none, some _, _, h2 => exact absurd h2 (by simp [densLE])
    | some _, some _, some _, h1, h2 =>
      exact decide_eq_true (le_trans (of_decide_eq_true h2) (of_decide_eq_true h1))

/-- The aggregate record returned by `compute_dataset_summary` (the fields
the claims are about; floating-point means and deviations are omitted). -/
structure DatasetSummary where
  total_models : Nat
  total_classes : Nat
  total_inheritance : Nat
  total_associations : Nat
  total_blocks : Nat
  label_frequency_distribution : List (Label × Nat)
  most_frequent_label_overall : Option Label
  top_dense_models : List (String × Option ℚ)
deriving DecidableEq

/-- The cross-record label histogram of `compute_dataset_summary` before the
`inheritance` entry is set: `Counter` updated with every record's
`association_types` map in order. -/
def aggAssocHist (stats_df : List DiagramStats) : List (Label × Nat) :=
  stats_df.foldl
    (fun h r => r.association_types.foldl
      (fun h2 p => counterAdd h2 (Label.rel p.1) p.2) h) []

/-- `compute_dataset_summary`: totals, combined label histogram with the
`inheritance` entry assigned last, most frequent label overall, and the
top-5 block-density ranking.  The second component of the result is the
caller's record collection as the call leaves it: every record now carries
its `block_density` value (the pandas `DataFrame` is mutated in place). -/
def compute_dataset_summary (stats_df : List DiagramStats) :
    DatasetSummary × List DiagramStats :=
  let total_inheritance := (stats_df.map (fun r => r.num_inheritance)).sum
  let label_counts := counterSet (aggAssocHist stats_df) Label.inheritance total_inheritance
  let mutated := stats_df.map withDensity
  let sorted := List.insertionSort rowBefore mutated
  let top := (sorted.take 5).map (fun r => (r.model, blockDensity r))
  (⟨stats_df.length,
    (stats_df.map (fun r => r.num_classes)).sum,
    total_inheritance,
    (stats_df.map (fun r => r.num_associations)).sum,
    (stats_df.map (fun r => r.num_blocks)).sum,
    label_counts,
    mostCommon1 label_counts,
    top⟩, mutated)

/-- A bare statistics record with the given model name, class count and
block count (used for concrete instantiations). -/
def mkRow (m : String) (nc nb : Nat) : DiagramStats :=
  ⟨m, nc, 0, 0, [], nb, 0, none, none⟩

/-- The block density is the rational quotient `num_blocks / num_classes`
whenever it is defined. -/
theorem blockDensity_eq_div (r : DiagramStats) :
    blockDensity r =
      if r.num_classes = 0 then none
      else some ((r.num_blocks : ℚ) / (r.num_classes : ℚ)) := by
  unfold blockDensity
  split
  · rfl
  · rw [Rat.mkRat_eq_div]
    norm_num

/-- The end-to-end parsing example of the specification: five relation
lines produce six classes, one reversed inheritance edge, and four typed
association edges. -/
theorem parse_yuml_model_example :
    (parse_yuml_model ["[A]^[B]".data, "[B]++[C]".data, "[C]*[D]".data,
        "[D]->[E]".data, "[E]??[F]".data]).inheritance = [("B", "A")] ∧
    (parse_yuml_model ["[A]^[B]".data, "[B]++[C]".data, "[C]*[D]".data,
        "[D]->[E]".data, "[E]??[F]".data]).associations =
      [("B", "C", RelKind.composition), ("C", "D", RelKind.aggregation),
       ("D", "E", RelKind.association), ("E", "F", RelKind.unknown)] ∧
    (parse_yuml_model ["[A]^[B]".data, "[B]++[C]".data, "[C]*[D]".data,
        "[D]->[E]".data, "[E]??[F]".data]).classes =
      {"A", "B", "C", "D", "E", "F"} :=
  ⟨by decide, by decide, by decide⟩

theorem mem_nodesOf_left {es : List (String × String)} {a b : String}
    (h : (a, b) ∈ es) : a ∈ nodesOf es := by
  unfold nodesOf
  rw [List.mem_dedup, List.mem_append]
  exact Or.inl (List.mem_map.mpr ⟨(a, b), h, rfl⟩)

theorem mem_nodesOf_right {es : List (String × String)} {a b : String}
    (h : (a, b) ∈ es) : b ∈ nodesOf es := by
  unfold nodesOf
  rw [List.mem_dedup, List.mem_append]
  exact Or.inr (List.mem_map.mpr ⟨(a, b), h, rfl⟩)

/-- The walk enumeration is sound and complete: `walksOfLen es k` holds
exactly the walks with `k` edges. -/
theorem walksOfLen_mem (es : List (String × String)) :
    ∀ (k : Nat) (p : List String),
      p ∈ walksOfLen es k ↔ (IsWalk es p ∧ p.length = k + 1) := by
  intro k
  induction k with
  | zero =>
    intro p
    constructor
    · intro hp
      obtain ⟨v, hv, rfl⟩ := List.mem_map.mp hp
      exact ⟨⟨by simp, List.chain'_singleton v, by simpa using hv⟩, rfl⟩
    · rintro ⟨⟨hne, hch, hmem⟩, hlen⟩
      obtain ⟨v, rfl⟩ := List.length_eq_one.mp hlen
      exact List.mem_map.mpr ⟨v, hmem v (by simp), rfl⟩
  | succ k ih =>
    intro p
    constructor
    · intro hp
      obtain ⟨q, hq, hpq⟩ := List.mem_flatMap.mp hp
      obtain ⟨⟨hqne, hqch, hqmem⟩, hqlen⟩ := (ih q).mp hq
      match q with
      | b :: rest =>
        simp only [stepsFrom, List.mem_map, List.mem_filter] at hpq
        obtain ⟨e, ⟨hees, heb⟩, rfl⟩ := hpq
        have heb' : e.2 = b := by simpa using heb
        have hedge : (e.1, b) ∈ es := by
          rw [← heb']
          exact hees
        refine ⟨⟨by simp, ?_, ?_⟩, by simpa using hqlen⟩
        · exact List.chain'_cons.mpr ⟨hedge, hqch⟩
        · intro v hv
          rcases List.mem_cons.mp hv with rfl | hv'
          · exact mem_nodesOf_left hedge
          · exact hqmem v hv'
    · rintro ⟨⟨hne, hch, hmem⟩, hlen⟩
      match p with
      | a :: b :: rest =>
        obtain ⟨hab, hch'⟩ := List.chain'_cons.mp hch
        have hq : (b :: rest) ∈ walksOfLen es k := by
          refine (ih (b :: rest)).mpr ⟨⟨by simp, hch', ?_⟩, by simpa using hlen⟩
          intro v hv
          exact hmem v (List.mem_cons_of_mem a hv)
        refine List.mem_flatMap.mpr ⟨b :: rest, hq, ?_⟩
        simp only [stepsFrom, List.mem_map, List.mem_filter]
        exact ⟨(a, b), ⟨hab, by simp⟩, rfl⟩

/-- Any chain with a duplicated element contains a closed sub-chain: a
directed cycle. -/
theorem closed_of_dup {α : Type} {R : α → α → Prop} :
    ∀ (p : List α), List.Chain' R p → ¬ p.Nodup →
      ∃ q, 2 ≤ q.length ∧ List.Chain' R q ∧ q.head? = q.getLast? ∧ q ⊆ p := by
  intro p
  induction p with
  | nil => intro _ hnd; exact absurd List.nodup_nil hnd
  | cons x xs ih =>
    intro hch hnd
    by_cases hx : x ∈ xs
    · obtain ⟨s, t, hst⟩ := List.append_of_mem hx
      refine ⟨x :: (s ++ [x]), by simp, ?_, ?_, ?_⟩
      · refine hch.prefix ⟨t, ?_⟩
        rw [hst]
        simp
      · have hq : x :: (s ++ [x]) = (x :: s) ++ [x] := by simp
        rw [hq, List.getLast?_concat]
        rfl
      · intro v hv
        rcases List.mem_cons.mp hv with rfl | hv'
        · exact List.mem_cons_self v _
        · rcases List.mem_append.mp hv' with hvs | hvx
          · rw [hst]
            exact List.mem_cons_of_mem x (List.mem_append_left _ hvs)
          · rw [List.mem_singleton.mp hvx]
            exact List.mem_cons_self x xs
    · have hnd' : ¬ xs.Nodup := by
        intro hxs
        exact hnd (List.nodup_cons.mpr ⟨hx, hxs⟩)
      obtain ⟨q, hq2, hqch, hqhl, hqsub⟩ := ih hch.tail hnd'
      exact ⟨q, hq2, hqch, hqhl, fun v hv => List.mem_cons_of_mem x (hqsub hv)⟩

/-- A duplicate-free walk is no longer than the node list. -/
theorem walk_length_le {es : List (String × String)} {p : List String}
    (hw : IsWalk es p) (hnd : p.Nodup) : p.length ≤ (nodesOf es).length :=
  (hnd.subperm fun _ hv => hw.2.2 _ hv).length_le

/-- In a graph with no cycle every walk is duplicate-free. -/
theorem walk_nodup {es : List (String × String)} {p : List String}
    (hw : IsWalk es p) (hnc : ¬ HasCycle es) : p.Nodup := by
  by_contra h
  obtain ⟨q, hq2, hqch, hqhl, hqsub⟩ := closed_of_dup p hw.2.1 h
  refine hnc ⟨q, ⟨?_, hqch, fun v hv => hw.2.2 v (hqsub hv)⟩, hq2, hqhl⟩
  intro hqnil
  rw [hqnil] at hq2
  simp at hq2

/-- A cycle pumps to walks of arbitrary length. -/
theorem cycle_walk_ge {es : List (String × String)} (hc : HasCycle es) :
    ∀ k : Nat, ∃ p, IsWalk es p ∧ k + 1 ≤ p.length := by
  obtain ⟨c, hcw, hc2, hchl⟩ := hc
  match c, hc2 with
  | h0 :: t0 :: t', _ =>
    set t : List String := t0 :: t' with ht
    have htne : t ≠ [] := by simp [ht]
    have hlast : (h0 :: t).getLast? = t.getLast? := by
      rw [show h0 :: t = [h0] ++ t by simp, List.getLast?_append_of_ne_nil _ htne]
    have key : ∀ k : Nat, ∃ p, IsWalk es p ∧ k + 1 ≤ p.length ∧
        p.getLast? = t.getLast? := by
      intro k
      induction k with
      | zero =>
        exact ⟨h0 :: t, hcw, by simp, hlast⟩
      | succ k ihk =>
        obtain ⟨p, hpw, hplen, hplast⟩ := ihk
        refine ⟨p ++ t, ⟨by simp [hpw.1], ?_, ?_⟩, ?_, ?_⟩
        · refine hpw.2.1.append (hcw.2.1.tail) ?_
          intro x hx y hy
          have hx0 : x = h0 := by
            rw [hplast] at hx
            have : (h0 :: t).getLast? = some x := by rw [hlast]; exact hx
            rw [← hchl] at this
            simpa using this.symm
          have hy0 : t0 = y := by simpa [ht] using hy
          rw [hx0, ← hy0]
          exact (List.chain'_cons.mp hcw.2.1).1
        · intro v hv
          rcases List.mem_append.mp hv with hvp | hvt
          · exact hpw.2.2 v hvp
          · exact hcw.2.2 v (List.mem_cons_of_mem h0 hvt)
        · have : 1 ≤ t.length := by simp [ht]
          rw [List.length_append]
          omega
        · rw [List.getLast?_append_of_ne_nil _ htne]
    intro k
    obtain ⟨p, hpw, hplen, _⟩ := key k
    exact ⟨p, hpw, hplen⟩

/-- A prefix of a walk is a walk. -/
theorem walk_take {es : List (String × String)} {p : List String}
    (hw : IsWalk es p) (k : Nat) (hk : 1 ≤ k) : IsWalk es (p.take k) := by
  refine ⟨?_, hw.2.1.take k, fun v hv => hw.2.2 v (List.take_subset k p hv)⟩
  have hp1 : 1 ≤ p.length := List.length_pos.mpr hw.1
  intro hnil
  have := congrArg List.length hnil
  rw [List.length_take] at this
  simp only [List.length_nil] at this
  omega

/-- A cyclic graph has a walk with as many edges as it has nodes. -/
theorem hasCycle_walksOfLen {es : List (String × String)} (hc : HasCycle es) :
    walksOfLen es (nodesOf es).length ≠ [] := by
  set n := (nodesOf es).length with hn
  obtain ⟨p, hpw, hplen⟩ := cycle_walk_ge hc n
  have hq : IsWalk es (p.take (n + 1)) := walk_take hpw (n + 1) (by omega)
  have hqlen : (p.take (n + 1)).length = n + 1 := by
    rw [List.length_take]
    omega
  exact List.ne_nil_of_mem ((walksOfLen_mem es n _).mpr ⟨hq, hqlen⟩)

/-- A graph with a walk with as many edges as it has nodes is cyclic. -/
theorem walksOfLen_hasCycle {es : List (String × String)}
    (h : walksOfLen es (nodesOf es).length ≠ []) : HasCycle es := by
  obtain ⟨p, hp⟩ := List.exists_mem_of_ne_nil _ h
  obtain ⟨hw, hlen⟩ := (walksOfLen_mem es _ p).mp hp
  by_contra hnc
  have hnd := walk_nodup hw hnc
  have hle := walk_length_le hw hnd
  omega

/-- The bounded-walk acyclicity check decides the semantic cycle property:
`is_dag` is `false` exactly on cyclic graphs. -/
theorem hasCycle_iff_not_dag (es : List (String × String)) :
    HasCycle es ↔ is_dag es = false := by
  unfold is_dag
  constructor
  · intro hc
    simpa using hasCycle_walksOfLen hc
  · intro hd
    exact walksOfLen_hasCycle (by simpa using hd)

theorem le_foldr_max (l : List Nat) : ∀ x ∈ l, x ≤ l.foldr max 0 := by
  induction l with
  | nil => simp
  | cons y ys ih =>
    intro x hx
    rcases List.mem_cons.mp hx with rfl | hx'
    · simp [List.foldr_cons, le_max_iff]
    · exact le_trans (ih x hx') (by simp [List.foldr_cons, le_max_iff])

theorem foldr_max_mem (l : List Nat) : l.foldr max 0 = 0 ∨ l.foldr max 0 ∈ l := by
  induction l with
  | nil => exact Or.inl rfl
  | cons y ys ih =>
    rw [List.foldr_cons]
    rcases le_or_lt (ys.foldr max 0) y with hle | hlt
    · right
      rw [max_eq_left hle]
      exact List.mem_cons_self y ys
    · rw [max_eq_right (le_of_lt hlt)]
      rcases ih with h0 | hmem
      · omega
      · exact Or.inr (List.mem_cons_of_mem y hmem)

/-- On a non-empty graph some walk attains `longestWalkLen`. -/
theorem longestWalk_exists {es : List (String × String)} (hne : nodesOf es ≠ []) :
    ∃ p, IsWalk es p ∧ p.length = longestWalkLen es + 1 := by
  set L := (List.range (nodesOf es).length).filter
    (fun k => !(walksOfLen es k).isEmpty) with hL
  have hpos : 0 < (nodesOf es).length := List.length_pos.mpr hne
  have h0 : 0 ∈ L := by
    rw [hL, List.mem_filter]
    refine ⟨List.mem_range.mpr hpos, ?_⟩
    rw [Bool.not_eq_true', List.isEmpty_eq_false]
    show (nodesOf es).map (fun v => [v]) ≠ []
    intro hmap
    exact hne (List.map_eq_nil_iff.mp hmap)
  have hmem : L.foldr max 0 ∈ L := by
    rcases foldr_max_mem L with h | h
    · rw [h]; exact h0
    · exact h
  have hlong : longestWalkLen es = L.foldr max 0 := rfl
  rw [List.mem_filter] at hmem
  obtain ⟨-, hw⟩ := hmem
  rw [Bool.not_eq_true', List.isEmpty_eq_false] at hw
  obtain ⟨p, hp⟩ := List.exists_mem_of_ne_nil _ hw
  obtain ⟨hpw, hplen⟩ := (walksOfLen_mem es _ p).mp hp
  exact ⟨p, hpw, by rw [hlong]; exact hplen⟩

/-- On an acyclic graph every walk has at most `longestWalkLen` edges. -/
theorem longestWalk_ub {es : List (String × String)} (hnc : ¬ HasCycle es)
    {p : List String} (hw : IsWalk es p) : p.length ≤ longestWalkLen es + 1 := by
  set L := (List.range (nodesOf es).length).filter
    (fun k => !(walksOfLen es k).isEmpty) with hL
  have hnd := walk_nodup hw hnc
  have hle := walk_length_le hw hnd
  have hp1 : 1 ≤ p.length := List.length_pos.mpr hw.1
  have hk : p.length - 1 ∈ L := by
    rw [hL, List.mem_filter]
    refine ⟨List.mem_range.mpr (by omega), ?_⟩
    rw [Bool.not_eq_true', List.isEmpty_eq_false]
    exact List.ne_nil_of_mem ((walksOfLen_mem es _ p).mpr ⟨hw, by omega⟩)
  have := le_foldr_max L _ hk
  have hlong : longestWalkLen es = L.foldr max 0 := rfl
  omega

/-- C4: per-diagram statistics compute `tree_depth` from the inheritance
edges as a directed graph in `(child, parent)` direction: on a non-empty
acyclic edge set it is the number of edges of the longest directed path in
the graph (some duplicate-free walk attains it and no walk exceeds it), and
on an empty or cyclic edge set it is `0`, without any failure. -/
theorem claim_C4_tree_depth (m : String) (g : DiagramGraph) :
    ((compute_graph_stats m g).tree_depth = tree_depth g.inheritance) ∧
    (g.inheritance = [] → (compute_graph_stats m g).tree_depth = 0) ∧
    (HasCycle g.inheritance → (compute_graph_stats m g).tree_depth = 0) ∧
    (g.inheritance ≠ [] → ¬ HasCycle g.inheritance →
      (∃ p, IsWalk g.inheritance p ∧ p.Nodup ∧
        p.length = (compute_graph_stats m g).tree_depth + 1) ∧
      (∀ p, IsWalk g.inheritance p →
        p.length ≤ (compute_graph_stats m g).tree_depth + 1)) := by
  have hrfl : (compute_graph_stats m g).tree_depth = tree_depth g.inheritance := rfl
  refine ⟨rfl, ?_, ?_, ?_⟩
  · intro h
    rw [hrfl, h]
    decide
  · intro hc
    rw [hrfl]
    unfold tree_depth
    rw [if_neg]
    rintro ⟨hdag, -⟩
    rw [(hasCycle_iff_not_dag _).mp hc] at hdag
    exact Bool.false_ne_true hdag
  · intro hne hnc
    have hdag : is_dag g.inheritance = true := by
      rcases Bool.eq_false_or_eq_true (is_dag g.inheritance) with ht | hf
      · exact ht
      · exact absurd ((hasCycle_iff_not_dag _).mpr hf) hnc
    have hnodes : nodesOf g.inheritance ≠ [] := by
      obtain ⟨e, he⟩ := List.exists_mem_of_ne_nil _ hne
      exact List.ne_nil_of_mem
        (mem_nodesOf_left (a := e.1) (b := e.2) (by simpa using he))
    have hdepth : tree_depth g.inheritance = longestWalkLen g.inheritance := by
      unfold tree_depth
      rw [if_pos ⟨hdag, List.length_pos.mpr hnodes⟩]
    constructor
    · obtain ⟨p, hpw, hplen⟩ := longestWalk_exists hnodes
      exact ⟨p, hpw, walk_nodup hpw hnc, by rw [hrfl, hdepth]; exact hplen⟩
    · intro p hpw
      rw [hrfl, hdepth]
      exact longestWalk_ub hnc hpw

/-- Witness for C4 at the spec's two concrete examples: the child→parent
chain `[(B,A),(C,B)]` is acyclic with depth 2 attained by a walk, and the
cycle `[(A,B),(B,A)]` yields depth 0. -/
theorem claim_C4_tree_depth_witness :
    (compute_graph_stats "m" ⟨∅, [("B", "A"), ("C", "B")], []⟩).tree_depth = 2 ∧
    (∃ p, IsWalk [("B", "A"), ("C", "B")] p ∧ p.Nodup ∧
      p.length =
        (compute_graph_stats "m" ⟨∅, [("B", "A"), ("C", "B")], []⟩).tree_depth + 1) ∧
    (compute_graph_stats "m" ⟨∅, [("A", "B"), ("B", "A")], []⟩).tree_depth = 0 := by
  have hnc : ¬ HasCycle [("B", "A"), ("C", "B")] := by
    intro hc
    have hf := (hasCycle_iff_not_dag _).mp hc
    exact absurd hf (by decide)
  have hcyc : HasCycle [("A", "B"), ("B", "A")] := by
    refine ⟨["A", "B", "A"], ⟨by decide, ?_, by decide⟩, by decide, by decide⟩
    simp [List.chain'_cons, List.chain'_singleton, EdgeStep]
  refine ⟨by decide, ?_, ?_⟩
  · exact ((claim_C4_tree_depth "m" ⟨∅, [("B", "A"), ("C", "B")], []⟩).2.2.2
      (by decide) hnc).1
  · exact (claim_C4_tree_depth "m" ⟨∅, [("A", "B"), ("B", "A")], []⟩).2.2.1 hcyc

/-- C5: in every record produced by the per-diagram statistics,
`num_associations` is the sum of the `association_types` histogram values
(inheritance not included), and
`num_blocks = num_classes + num_inheritance + num_associations`. -/
theorem claim_C5_invariants (m : String) (g : DiagramGraph) :
    (compute_graph_stats m g).num_associations =
      (((compute_graph_stats m g).association_types).map Prod.snd).sum ∧
    (compute_graph_stats m g).num_blocks =
      (compute_graph_stats m g).num_classes +
        (compute_graph_stats m g).num_inheritance +
        (compute_graph_stats m g).num_associations :=
  ⟨rfl, rfl⟩

/-- On a processed (non-skipped) line with exactly two normalized tokens,
`processLine` updates the class set and then applies the relation
classification to the token pair. -/
theorem processLine_two_tokens (g : DiagramGraph) (line : List Char) (t1 t2 : String)
    (hskip : lineSkip (pyStrip line) = false)
    (htoks : lineTokens (pyStrip line) = [t1, t2]) :
    processLine g line = applyRelation
      { g with classes :=
          (lineTokens (pyStrip line)).foldl (fun s c => insert c s) g.classes }
      (pyStrip line) t1 t2 := by
  unfold processLine
  simp only [hskip, Bool.false_eq_true, if_false, htoks]

/-- On a processed line whose token count is anything other than two,
`processLine` only updates the class set. -/
theorem processLine_other_tokens (g : DiagramGraph) (line : List Char)
    (hskip : lineSkip (pyStrip line) = false)
    (hlen : (lineTokens (pyStrip line)).length ≠ 2) :
    processLine g line =
      { g with classes :=
          (lineTokens (pyStrip line)).foldl (fun s c => insert c s) g.classes } := by
  unfold processLine
  rcases hlt : lineTokens (pyStrip line) with - | ⟨a, - | ⟨b, - | ⟨c, rest⟩⟩⟩
  · simp only [hskip, Bool.false_eq_true, if_false, hlt]
  · simp only [hskip, Bool.false_eq_true, if_false, hlt]
  · rw [hlt] at hlen
    simp at hlen
  · simp only [hskip, Bool.false_eq_true, if_false, hlt]

/-- C2: on a processed line with exactly two bracket tokens that contains
`^`, the parser records exactly the reversed pair: the second token becomes
the child (first component) and the first token the parent, and no
association edge is recorded. -/
theorem claim_C2_inheritance_reversal (g : DiagramGraph) (line : List Char)
    (t1 t2 : String)
    (hskip : lineSkip (pyStrip line) = false)
    (htoks : lineTokens (pyStrip line) = [t1, t2])
    (hmark : (pyStrip line).contains '^' = true) :
    (processLine g line).inheritance = g.inheritance ++ [(t2, t1)] ∧
    (processLine g line).associations = g.associations := by
  rw [processLine_two_tokens g line t1 t2 hskip htoks]
  unfold applyRelation
  rw [if_pos hmark]
  exact ⟨rfl, rfl⟩

/-- Witness for C2: the line `[A]^[B]` alone yields the single inheritance
edge `(B, A)` and no associations. -/
theorem claim_C2_inheritance_reversal_witness :
    (processLine ⟨∅, [], []⟩ "[A]^[B]".data).inheritance = [("B", "A")] ∧
    (processLine ⟨∅, [], []⟩ "[A]^[B]".data).associations = [] :=
  claim_C2_inheritance_reversal ⟨∅, [], []⟩ "[A]^[B]".data "A" "B"
    (by decide) (by decide) (by decide)

/-- C3: on a processed line with exactly two bracket tokens, exactly one
relation is recorded, chosen by first-match-wins over the marker order
`^`, `++`, `*`, `->`, unknown; in particular a line containing both `^`
and `*` is classified as inheritance, never aggregation. -/
theorem claim_C3_marker_priority (g : DiagramGraph) (line : List Char)
    (t1 t2 : String)
    (hskip : lineSkip (pyStrip line) = false)
    (htoks : lineTokens (pyStrip line) = [t1, t2]) :
    ((pyStrip line).contains '^' = true →
      (processLine g line).inheritance = g.inheritance ++ [(t2, t1)] ∧
      (processLine g line).associations = g.associations) ∧
    ((pyStrip line).contains '^' = false →
      containsSeq ['+', '+'] (pyStrip line) = true →
      (processLine g line).associations =
        g.associations ++ [(t1, t2, RelKind.composition)] ∧
      (processLine g line).inheritance = g.inheritance) ∧
    ((pyStrip line).contains '^' = false →
      containsSeq ['+', '+'] (pyStrip line) = false →
      (pyStrip line).contains '*' = true →
      (processLine g line).associations =
        g.associations ++ [(t1, t2, RelKind.aggregation)] ∧
      (processLine g line).inheritance = g.inheritance) ∧
    ((pyStrip line).contains '^' = false →
      containsSeq ['+', '+'] (pyStrip line) = false →
      (pyStrip line).contains '*' = false →
      containsSeq ['-', '>'] (pyStrip line) = true →
      (processLine g line).associations =
        g.associations ++ [(t1, t2, RelKind.association)] ∧
      (processLine g line).inheritance = g.inheritance) ∧
    ((pyStrip line).contains '^' = false →
      containsSeq ['+', '+'] (pyStrip line) = false →
      (pyStrip line).contains '*' = false →
      containsSeq ['-', '>'] (pyStrip line) = false →
      (processLine g line).associations =
        g.associations ++ [(t1, t2, RelKind.unknown)] ∧
      (processLine g line).inheritance = g.inheritance) ∧
    ((processLine g line).inheritance.length +
        (processLine g line).associations.length =
      g.inheritance.length + g.associations.length + 1) := by
  rw [processLine_two_tokens g line t1 t2 hskip htoks]
  unfold applyRelation
  split_ifs with h1 h2 h3 h4 <;>
    refine ⟨?_, ?_, ?_, ?_, ?_, ?_⟩ <;>
    simp_all <;> omega

/-- Witness for C3 at the line `[A]^[B]*`: both `^` and `*` are present and
the line is recorded as the single inheritance edge `(B, A)`. -/
theorem claim_C3_marker_priority_witness :
    (pyStrip "[A]^[B]*".data).contains '^' = true ∧
    (pyStrip "[A]^[B]*".data).contains '*' = true ∧
    (processLine ⟨∅, [], []⟩ "[A]^[B]*".data).inheritance = [("B", "A")] ∧
    (processLine ⟨∅, [], []⟩ "[A]^[B]*".data).associations = [] := by
  refine ⟨by decide, by decide, ?_⟩
  have h := (claim_C3_marker_priority ⟨∅, [], []⟩ "[A]^[B]*".data "A" "B"
    (by decide) (by decide)).1 (by decide)
  exact ⟨h.1, h.2⟩

theorem foldl_insert_superset (ts : List String) :
    ∀ (s : Finset String) (t : String), t ∈ s →
      t ∈ ts.foldl (fun s c => insert c s) s := by
  induction ts with
  | nil => intro s t ht; simpa using ht
  | cons c cs ih => intro s t ht; exact ih _ t (Finset.mem_insert_of_mem ht)

theorem mem_foldl_insert_of_mem (ts : List String) :
    ∀ (s : Finset String) (t : String), t ∈ ts →
      t ∈ ts.foldl (fun s c => insert c s) s := by
  induction ts with
  | nil => intro s t ht; simp at ht
  | cons c cs ih =>
    intro s t ht
    rcases List.mem_cons.mp ht with rfl | ht'
    · exact foldl_insert_superset cs _ t (Finset.mem_insert_self t s)
    · exact ih _ t ht'

/-- C8: every normalized bracket token of a processed line lands in the
class set, regardless of the token count; and a line whose token count is
not exactly two records no inheritance edge and no association edge. -/
theorem claim_C8_class_set (g : DiagramGraph) (line : List Char)
    (hskip : lineSkip (pyStrip line) = false) :
    (∀ t ∈ lineTokens (pyStrip line), t ∈ (processLine g line).classes) ∧
    ((lineTokens (pyStrip line)).length ≠ 2 →
      (processLine g line).inheritance = g.inheritance ∧
      (processLine g line).associations = g.associations) := by
  constructor
  · intro t ht
    by_cases h2 : (lineTokens (pyStrip line)).length = 2
    · obtain ⟨t1, t2, htoks⟩ := List.length_eq_two.mp h2
      rw [processLine_two_tokens g line t1 t2 hskip htoks]
      unfold applyRelation
      split_ifs <;> exact mem_foldl_insert_of_mem _ _ t ht
    · rw [processLine_other_tokens g line hskip h2]
      exact mem_foldl_insert_of_mem _ _ t ht
  · intro h2
    rw [processLine_other_tokens g line hskip h2]
    exact ⟨rfl, rfl⟩

/-- Witness for C8: the three-token line `[A][B][C]` contributes all three
classes and no edges. -/
theorem claim_C8_class_set_witness :
    ("A" ∈ (processLine ⟨∅, [], []⟩ "[A][B][C]".data).classes ∧
     "B" ∈ (processLine ⟨∅, [], []⟩ "[A][B][C]".data).classes ∧
     "C" ∈ (processLine ⟨∅, [], []⟩ "[A][B][C]".data).classes) ∧
    (processLine ⟨∅, [], []⟩ "[A][B][C]".data).inheritance = [] ∧
    (processLine ⟨∅, [], []⟩ "[A][B][C]".data).associations = [] := by
  have h := claim_C8_class_set ⟨∅, [], []⟩ "[A][B][C]".data (by decide)
  exact ⟨⟨h.1 "A" (by decide), h.1 "B" (by decide), h.1 "C" (by decide)⟩,
    h.2 (by decide)⟩

/-- C7: the per-diagram statistics operation fails exactly when the model
name has no entry in the model → file table, with an error message naming
the model; on any matching entry it returns a statistics record. -/
theorem claim_C7_lookup_error (name : String)
    (df : List (String × List (List Char))) :
    ((∃ s, compute_model_stats name df = Except.ok s) ↔ name ∈ df.map Prod.fst) ∧
    (compute_model_stats name df =
        Except.error ("No .yuml file found for model " ++ name) ↔
      name ∉ df.map Prod.fst) := by
  rcases hf : df.filter (fun r => decide (r.1 = name)) with - | ⟨r, rest⟩
  · have hnotin : name ∉ df.map Prod.fst := by
      intro hin
      obtain ⟨q, hq, hq1⟩ := List.mem_map.mp hin
      have : q ∈ df.filter (fun r => decide (r.1 = name)) :=
        List.mem_filter.mpr ⟨hq, by simp [hq1]⟩
      rw [hf] at this
      simp at this
    have hres : compute_model_stats name df =
        Except.error ("No .yuml file found for model " ++ name) := by
      unfold compute_model_stats
      rw [hf]
    constructor
    · constructor
      · rintro ⟨s, hs⟩
        rw [hres] at hs
        cases hs
      · intro hin
        exact absurd hin hnotin
    · exact ⟨fun _ => hnotin, fun _ => hres⟩
  · have hrmem : r ∈ df ∧ r.1 = name := by
      have hr : r ∈ df.filter (fun q => decide (q.1 = name)) := by
        rw [hf]
        exact List.mem_cons_self r rest
      have := List.mem_filter.mp hr
      exact ⟨this.1, by simpa using this.2⟩
    have hin : name ∈ df.map Prod.fst := List.mem_map.mpr ⟨r, hrmem.1, hrmem.2⟩
    have hres : compute_model_stats name df =
        Except.ok (compute_graph_stats name (parse_yuml_model r.2)) := by
      unfold compute_model_stats
      rw [hf]
    constructor
    · exact ⟨fun _ => hin, fun _ => ⟨_, hres⟩⟩
    · constructor
      · intro he
        rw [hres] at he
        cases he
      · intro hni
        exact absurd hin hni

/-- Setting a key that is absent from an insertion-ordered histogram
appends the entry at the end. -/
theorem counterSet_append {κ : Type} [DecidableEq κ] (h : List (κ × Nat)) (k : κ)
    (n : Nat) (hk : ∀ p ∈ h, p.1 ≠ k) : counterSet h k n = h ++ [(k, n)] := by
  unfold counterSet
  rw [if_neg]
  intro hany
  rw [List.any_eq_true] at hany
  obtain ⟨p, hp, hpk⟩ := hany
  exact hk p hp (by simpa using hpk)

/-- The per-diagram combined histogram is the association tally (in
first-seen order) with the `inheritance` entry appended last. -/
theorem labelHist_eq (g : DiagramGraph) :
    labelHist g = (assocTypeCounts g).map (fun p => (Label.rel p.1, p.2)) ++
      [(Label.inheritance, g.inheritance.length)] := by
  unfold labelHist
  apply counterSet_append
  intro p hp
  obtain ⟨q, -, rfl⟩ := List.mem_map.mp hp
  simp

theorem mostCommon1_isSome {κ : Type} (l : List (κ × Nat)) (h : l ≠ []) :
    ∃ k, mostCommon1 l = some k := by
  match l with
  | p :: rest => exact ⟨(bestEntry p rest).1, rfl⟩
  | [] => exact absurd rfl h

/-- C10: the combined label histogram always carries an `inheritance` entry
(count 0 when there are no inheritance edges), so `most_frequent_label` is
never absent; with no edges at all it is the label `inheritance`. -/
theorem claim_C10_label_total (m : String) (g : DiagramGraph) :
    (Label.inheritance, g.inheritance.length) ∈ labelHist g ∧
    (∃ k, (compute_graph_stats m g).most_frequent_label = some k) ∧
    (g.inheritance = [] → g.associations = [] →
      (compute_graph_stats m g).most_frequent_label = some Label.inheritance) := by
  refine ⟨?_, ?_, ?_⟩
  · rw [labelHist_eq]
    exact List.mem_append_right _ (List.mem_singleton_self _)
  · have hmfl : (compute_graph_stats m g).most_frequent_label =
        mostCommon1 (labelHist g) := rfl
    rw [hmfl]
    apply mostCommon1_isSome
    rw [labelHist_eq]
    simp
  · intro hinh hassoc
    have hmfl : (compute_graph_stats m g).most_frequent_label =
        mostCommon1 (labelHist g) := rfl
    rw [hmfl, labelHist_eq, hinh]
    unfold assocTypeCounts
    rw [hassoc]
    rfl

/-- Witness for C10: a graph with no inheritance and no association edges
reports `inheritance` as its most frequent label. -/
theorem claim_C10_label_total_witness :
    (compute_graph_stats "m" ⟨∅, [], []⟩).most_frequent_label =
      some Label.inheritance :=
  (claim_C10_label_total "m" ⟨∅, [], []⟩).2.2 rfl rfl

/-- C9: the aggregation is not effect-free on its input: it hands back the
caller's collection with a `block_density` value filled into every record,
so a collection whose records lack the column never comes back unchanged. -/
theorem claim_C9_mutation (rs : List DiagramStats) :
    (compute_dataset_summary rs).2 = rs.map withDensity ∧
    (∀ r : DiagramStats, (withDensity r).block_density = some (blockDensity r)) ∧
    (rs ≠ [] → (∀ r ∈ rs, r.block_density = none) →
      (compute_dataset_summary rs).2 ≠ rs) := by
  refine ⟨rfl, fun r => rfl, ?_⟩
  intro hne hnone heq
  match rs, hne, hnone, heq with
  | r0 :: rest, _, hnone, heq =>
    have h0 : (compute_dataset_summary (r0 :: rest)).2 =
        withDensity r0 :: rest.map withDensity := rfl
    rw [h0] at heq
    have hhead : withDensity r0 = r0 := (List.cons.injEq _ _ _ _).mp heq |>.1
    have hbd := congrArg DiagramStats.block_density hhead
    rw [hnone r0 (List.mem_cons_self r0 rest)] at hbd
    simp [withDensity] at hbd

/-- Witness for C9 on a one-record collection: the call does not leave the
input unchanged. -/
theorem claim_C9_mutation_witness :
    (compute_dataset_summary [mkRow "A" 1 1]).2 ≠ [mkRow "A" 1 1] :=
  (claim_C9_mutation [mkRow "A" 1 1]).2.2 (by decide) (by decide)

/-- `bestEntry` returns the first entry of maximal count: the scanned list
splits around the result, everything before it has strictly smaller count,
and nothing has a larger count. -/
theorem bestEntry_first {κ : Type} :
    ∀ (rest : List (κ × Nat)) (b : κ × Nat),
      ∃ l1 l2, b :: rest = l1 ++ bestEntry b rest :: l2 ∧
        (∀ x ∈ l1, x.2 < (bestEntry b rest).2) ∧
        (∀ x ∈ b :: rest, x.2 ≤ (bestEntry b rest).2) := by
  intro rest
  induction rest with
  | nil =>
    intro b
    refine ⟨[], [], rfl, by simp, ?_⟩
    intro x hx
    rw [List.mem_singleton.mp hx]
    exact le_refl _
  | cons q rest' ih =>
    intro b
    have hb : bestEntry b (q :: rest') = bestEntry (if b.2 < q.2 then q else b) rest' := rfl
    obtain ⟨l1, l2, hdec, hlt, hle⟩ := ih (if b.2 < q.2 then q else b)
    by_cases hbq : b.2 < q.2
    · rw [if_pos hbq] at hdec hlt hle
      rw [hb, if_pos hbq]
      refine ⟨b :: l1, l2, by rw [List.cons_append, ← hdec], ?_, ?_⟩
      · intro x hx
        rcases List.mem_cons.mp hx with rfl | hx'
        · exact lt_of_lt_of_le hbq (hle q (List.mem_cons_self q rest'))
        · exact hlt x hx'
      · intro x hx
        rcases List.mem_cons.mp hx with rfl | hx'
        · exact le_of_lt (lt_of_lt_of_le hbq (hle q (List.mem_cons_self q rest')))
        · exact hle x hx'
    · rw [if_neg hbq] at hdec hlt hle
      rw [hb, if_neg hbq]
      have hqb : q.2 ≤ b.2 := le_of_not_lt hbq
      match l1, hdec with
      | [], hdec =>
        have hbb : bestEntry b rest' = b := ((List.cons.injEq _ _ _ _).mp hdec).1.symm
        have hl2 : l2 = rest' := ((List.cons.injEq _ _ _ _).mp hdec).2.symm
        refine ⟨[], q :: rest', by simp [hbb], by simp, ?_⟩
        intro x hx
        rcases List.mem_cons.mp hx with rfl | hx'
        · rw [hbb]
        · rcases List.mem_cons.mp hx' with rfl | hx''
          · rw [hbb]
            exact hqb
          · exact hle x (List.mem_cons_of_mem b hx'')
      | p :: l1', hdec =>
        have hpb : p = b := ((List.cons.injEq _ _ _ _).mp hdec).1.symm
        have hrest : rest' = l1' ++ bestEntry b rest' :: l2 :=
          ((List.cons.injEq _ _ _ _).mp hdec).2
        have hblt : b.2 < (bestEntry b rest').2 := by
          have := hlt p (List.mem_cons_self p l1')
          rw [hpb] at this
          exact this
        refine ⟨b :: q :: l1', l2, ?_, ?_, ?_⟩
        · rw [List.cons_append, List.cons_append, ← hrest]
        · intro x hx
          rcases List.mem_cons.mp hx with rfl | hx'
          · exact hblt
          · rcases List.mem_cons.mp hx' with rfl | hx''
            · exact lt_of_le_of_lt hqb hblt
            · exact hlt x (List.mem_cons_of_mem p hx'')
        · intro x hx
          rcases List.mem_cons.mp hx with rfl | hx'
          · exact le_of_lt hblt
          · rcases List.mem_cons.mp hx' with rfl | hx''
            · exact le_trans hqb (le_of_lt hblt)
            · exact hle x (List.mem_cons_of_mem b hx'')

/-- `mostCommon1` realizes the first-seen tie-break policy. -/
theorem mostCommon1_firstMax {κ : Type} (l : List (κ × Nat)) (k : κ)
    (h : mostCommon1 l = some k) : FirstMax l k := by
  match l, h with
  | p :: rest, h =>
    have hk : (bestEntry p rest).1 = k := by
      have := (Option.some.injEq _ _).mp h
      rw [← this]
    obtain ⟨l1, l2, hdec, hlt, hle⟩ := bestEntry_first rest p
    exact ⟨l1, bestEntry p rest, l2, hdec, hk, fun q hq => hle q hq, hlt⟩

theorem counterAdd_fst {κ : Type} [DecidableEq κ] (h : List (κ × Nat)) (k k' : κ)
    (n : Nat) (hk : ∀ p ∈ h, p.1 ≠ k') (hkk : k ≠ k') :
    ∀ p ∈ counterAdd h k n, p.1 ≠ k' := by
  unfold counterAdd
  split_ifs
  · intro p hp
    obtain ⟨q, hq, hpq⟩ := List.mem_map.mp hp
    have hfst : p.1 = q.1 := by
      rw [← hpq]
      split_ifs <;> rfl
    rw [hfst]
    exact hk q hq
  · intro p hp
    rcases List.mem_append.mp hp with h1 | h2
    · exact hk p h1
    · rw [List.mem_singleton.mp h2]
      exact hkk

/-- No entry of the cross-record association histogram carries the
`inheritance` label. -/
theorem aggAssocHist_noInh (rs : List DiagramStats) :
    ∀ p ∈ aggAssocHist rs, p.1 ≠ Label.inheritance := by
  have inner : ∀ (ms : List (RelKind × Nat)) (acc2 : List (Label × Nat)),
      (∀ p ∈ acc2, p.1 ≠ Label.inheritance) →
      ∀ p ∈ ms.foldl (fun h2 q => counterAdd h2 (Label.rel q.1) q.2) acc2,
        p.1 ≠ Label.inheritance := by
    intro ms
    induction ms with
    | nil => intro acc2 h2; simpa using h2
    | cons mq ms ihm =>
      intro acc2 h2
      exact ihm _ (counterAdd_fst acc2 (Label.rel mq.1) Label.inheritance mq.2 h2 (by simp))
  have outer : ∀ (l : List DiagramStats) (acc : List (Label × Nat)),
      (∀ p ∈ acc, p.1 ≠ Label.inheritance) →
      ∀ p ∈ l.foldl (fun h r => r.association_types.foldl
        (fun h2 q => counterAdd h2 (Label.rel q.1) q.2) h) acc,
        p.1 ≠ Label.inheritance := by
    intro l
    induction l with
    | nil => intro acc hacc; simpa using hacc
    | cons r l ihl =>
      intro acc hacc
      exact ihl _ (inner r.association_types acc hacc)
  exact outer rs [] (by simp)

/-- C6: per diagram, `most_frequent_label` is the first maximal-count label
of the combined histogram, which is the association tally in first-seen
order with `inheritance` appended last; the aggregate
`most_frequent_label_overall` satisfies the same first-seen tie-break over
the summed cross-record histogram with its synthetic `inheritance` entry
appended last. -/
theorem claim_C6_tie_break (m : String) (g : DiagramGraph)
    (rs : List DiagramStats) :
    (labelHist g = (assocTypeCounts g).map (fun p => (Label.rel p.1, p.2)) ++
        [(Label.inheritance, g.inheritance.length)]) ∧
    (∃ k, (compute_graph_stats m g).most_frequent_label = some k ∧
      FirstMax (labelHist g) k) ∧
    ((compute_dataset_summary rs).1.label_frequency_distribution =
        aggAssocHist rs ++
          [(Label.inheritance, (rs.map (fun r => r.num_inheritance)).sum)]) ∧
    (∃ k, (compute_dataset_summary rs).1.most_frequent_label_overall = some k ∧
      FirstMax ((compute_dataset_summary rs).1.label_frequency_distribution) k) := by
  have hagg : (compute_dataset_summary rs).1.label_frequency_distribution =
      counterSet (aggAssocHist rs) Label.inheritance
        ((rs.map (fun r => r.num_inheritance)).sum) := rfl
  have haggeq : (compute_dataset_summary rs).1.label_frequency_distribution =
      aggAssocHist rs ++
        [(Label.inheritance, (rs.map (fun r => r.num_inheritance)).sum)] := by
    rw [hagg]
    exact counterSet_append _ _ _ (aggAssocHist_noInh rs)
  refine ⟨labelHist_eq g, ?_, haggeq, ?_⟩
  · have hmfl : (compute_graph_stats m g).most_frequent_label =
        mostCommon1 (labelHist g) := rfl
    have hne : labelHist g ≠ [] := by
      rw [labelHist_eq]
      simp
    obtain ⟨k, hk⟩ := mostCommon1_isSome _ hne
    exact ⟨k, by rw [hmfl]; exact hk, mostCommon1_firstMax _ k hk⟩
  · have hmfl : (compute_dataset_summary rs).1.most_frequent_label_overall =
        mostCommon1 ((compute_dataset_summary rs).1.label_frequency_distribution) := rfl
    have hne : (compute_dataset_summary rs).1.label_frequency_distribution ≠ [] := by
      rw [haggeq]
      simp
    obtain ⟨k, hk⟩ := mostCommon1_isSome _ hne
    exact ⟨k, by rw [hmfl]; exact hk, mostCommon1_firstMax _ k hk⟩

/-- Inserting `a` into `l` commutes with filtering by a predicate whose
holders are all `r`-above `a`: the filtered entry lands in front. -/
theorem filter_orderedInsert {α : Type} (r : α → α → Prop) [DecidableRel r]
    (p : α → Bool) (a : α) :
    ∀ l : List α, (∀ b ∈ l, p b = true → p a = true → r a b) →
      (l.orderedInsert r a).filter p =
        if p a = true then a :: l.filter p else l.filter p := by
  intro l
  induction l with
  | nil =>
    intro _
    cases hpa : p a <;> simp [List.orderedInsert, List.filter, hpa]
  | cons b l ih =>
    intro h
    rw [List.orderedInsert]
    by_cases hr : r a b
    · rw [if_pos hr]
      cases hpa : p a <;> simp [List.filter_cons, hpa]
    · rw [if_neg hr]
      have ihl := ih fun x hx => h x (List.mem_cons_of_mem b hx)
      by_cases hpa : p a = true
      · have hpb : p b = false := by
          rcases Bool.eq_false_or_eq_true (p b) with ht | hf
          · exact absurd (h b (List.mem_cons_self b l) ht hpa) hr
          · exact hf
        rw [List.filter_cons, List.filter_cons, hpb, ihl]
        simp [hpa, hpb]
      · have hpa' : p a = false := by
          rcases Bool.eq_false_or_eq_true (p a) with ht | hf
          · exact absurd ht hpa
          · exact hf
        rw [List.filter_cons, List.filter_cons, ihl]
        simp [hpa']

/-- Insertion sort is stable: filtering by a predicate whose holders are
mutually related recovers the original subsequence unchanged. -/
theorem filter_insertionSort {α : Type} (r : α → α → Prop) [DecidableRel r]
    (p : α → Bool) (hp : ∀ a b, p a = true → p b = true → r a b) :
    ∀ l : List α, (l.insertionSort r).filter p = l.filter p := by
  intro l
  induction l with
  | nil => rfl
  | cons x l ih =>
    rw [List.insertionSort,
      filter_orderedInsert r p x _ fun b _ hpb hpx => hp x b hpx hpb]
    by_cases hpx : p x = true
    · rw [if_pos hpx, ih, List.filter_cons, if_pos hpx]
    · have hpx' : p x = false := by
        rcases Bool.eq_false_or_eq_true (p x) with ht | hf
        · exact absurd ht hpx
        · exact hf
      rw [if_neg hpx, ih, List.filter_cons, if_neg hpx]

theorem blockDensity_none_iff (r : DiagramStats) :
    blockDensity r = none ↔ r.num_classes = 0 := by
  unfold blockDensity
  split_ifs with h
  · simp [h]
  · simp [h]

/-- In a list sorted by the density key, an undefined density inside the
first `k` entries forces fewer than `k` defined densities overall. -/
theorem sorted_take_undefined :
    ∀ (l : List DiagramStats), l.Sorted rowBefore →
      ∀ k : Nat, (∃ r ∈ l.take k, blockDensity r = none) →
        (l.filter (fun r => decide (blockDensity r ≠ none))).length < k := by
  intro l
  induction l with
  | nil =>
    rintro - k ⟨r, hr, -⟩
    simp at hr
  | cons x xs ih =>
    intro hs k hex
    match k, hex with
    | k + 1, ⟨r, hr, hrd⟩ =>
      rcases List.mem_cons.mp (by simpa using hr) with rfl | hr'
      · have hall : ∀ y ∈ xs, blockDensity y = none := by
          intro y hy
          have hxy : rowBefore r y := List.rel_of_sorted_cons hs y hy
          unfold rowBefore rowBeforeB at hxy
          rw [hrd] at hxy
          cases hby : blockDensity y
          · rfl
          · rw [hby] at hxy
            exact absurd hxy (by simp [densLE])
        have hnil : (r :: xs).filter (fun s => decide (blockDensity s ≠ none)) = [] := by
          rw [List.filter_eq_nil_iff]
          intro a ha
          rcases List.mem_cons.mp ha with rfl | ha'
          · simp [hrd]
          · simp [hall a ha']
        rw [hnil]
        simp
      · have hlt := ih hs.of_cons k ⟨r, hr', hrd⟩
        rw [List.filter_cons]
        split_ifs
        · simp only [List.length_cons]
          omega
        · omega

/-- Sorting the mutated records keeps as many defined densities as the
input has records with a positive class count. -/
theorem countValid_sorted (rs : List DiagramStats) :
    ((List.insertionSort rowBefore (rs.map withDensity)).filter
        (fun r => decide (blockDensity r ≠ none))).length =
      (rs.filter (fun r => decide (r.num_classes ≠ 0))).length := by
  have hperm : List.Perm (List.insertionSort rowBefore (rs.map withDensity))
      (rs.map withDensity) :=
    List.perm_insertionSort _ _
  rw [(hperm.filter _).length_eq, List.filter_map, List.length_map]
  congr 1
  apply List.filter_congr
  intro r hr
  have h1 : blockDensity (withDensity r) = blockDensity r := rfl
  show decide (blockDensity (withDensity r) ≠ none) = decide (r.num_classes ≠ 0)
  rw [h1]
  exact decide_eq_decide.mpr (not_congr (blockDensity_none_iff r))

/-- C1 counterexample: with one positive-class record and one zero-class
record, the zero-class record `B` appears among the reported top-5
(model, density) pairs (with an undefined density), so a record with
`num_classes = 0` is not excluded from the reported ranking. -/
theorem claim_C1_counterexample :
    (compute_dataset_summary [mkRow "A" 2 4, mkRow "B" 0 7]).1.top_dense_models =
      [("A", some 2), ("B", none)] ∧
    (mkRow "B" 0 7).num_classes = 0 ∧
    ("B", (none : Option ℚ)) ∈
      (compute_dataset_summary [mkRow "A" 2 4, mkRow "B" 0 7]).1.top_dense_models :=
  ⟨by decide, rfl, by decide⟩

/-- C1 (amended): the reported ranking is all records sorted by block
density — records with `num_classes = 0` carry an undefined density and
sort after every defined density, ties keep original record order — then
truncated to 5; a zero-class record therefore never appears whenever at
least 5 records have `num_classes > 0`, but it can pad the list when fewer
do. -/
theorem claim_C1_amended (rs : List DiagramStats) :
    ((compute_dataset_summary rs).1.top_dense_models =
      ((List.insertionSort rowBefore (rs.map withDensity)).take 5).map
        (fun r => (r.model, blockDensity r))) ∧
    (List.insertionSort rowBefore (rs.map withDensity)).Sorted rowBefore ∧
    List.Perm (List.insertionSort rowBefore (rs.map withDensity)) (rs.map withDensity) ∧
    (∀ q : ℚ, (List.insertionSort rowBefore (rs.map withDensity)).filter
        (fun r => decide (blockDensity r = some q)) =
      (rs.map withDensity).filter (fun r => decide (blockDensity r = some q))) ∧
    (5 ≤ (rs.filter (fun r => decide (r.num_classes ≠ 0))).length →
      ∀ p ∈ (compute_dataset_summary rs).1.top_dense_models, p.2 ≠ none) := by
  refine ⟨rfl, List.sorted_insertionSort rowBefore _,
    List.perm_insertionSort rowBefore _, ?_, ?_⟩
  · intro q
    apply filter_insertionSort
    intro a b hpa hpb
    unfold rowBefore rowBeforeB
    rw [of_decide_eq_true hpa, of_decide_eq_true hpb]
    exact decide_eq_true (le_refl q)
  · intro h5 p hp
    have htop : (compute_dataset_summary rs).1.top_dense_models =
        ((List.insertionSort rowBefore (rs.map withDensity)).take 5).map
          (fun r => (r.model, blockDensity r)) := rfl
    rw [htop] at hp
    obtain ⟨r, hrmem, rfl⟩ := List.mem_map.mp hp
    intro hrd'
    have hrd : blockDensity r = none := hrd'
    have hlt := sorted_take_undefined _ (List.sorted_insertionSort rowBefore _) 5
      ⟨r, hrmem, hrd⟩
    rw [countValid_sorted rs] at hlt
    omega

/-- Witness for the amended C1: with five positive-class records and one
zero-class record, every reported pair has a defined density. -/
theorem claim_C1_amended_witness :
    5 ≤ (([mkRow "A" 1 1, mkRow "B" 1 2, mkRow "C" 1 3, mkRow "D" 1 4,
        mkRow "E" 1 5, mkRow "F" 0 9]).filter
        (fun r => decide (r.num_classes ≠ 0))).length ∧
    ∀ p ∈ (compute_dataset_summary [mkRow "A" 1 1, mkRow "B" 1 2, mkRow "C" 1 3,
        mkRow "D" 1 4, mkRow "E" 1 5, mkRow "F" 0 9]).1.top_dense_models,
      p.2 ≠ none :=
  ⟨by decide, (claim_C1_amended _).2.2.2.2 (by decide)⟩
